import Mathlib

set_option maxHeartbeats 1000000
set_option maxRecDepth 8192

/-!
Verification development for the MacPmem `pte_mmap` core (rekall repository).

The repository provides the public header `src/tools/osx/MacPmem/MacPmem/pte_mmap.h`,
which declares the five operations `pmem_pte_vtop`, `pmem_pte_init`,
`pmem_pte_cleanup`, `pmem_pte_map_rogue` and `pmem_readwrite_rogue`, and the
compile-time constant `PMEM_USE_LARGE_PAGES = 0`.  The implementation file
(`pte_mmap.c`) is not part of the sources, so the behaviour of these operations
is modelled from the specification document, faithful to its words; the
constant and the C types of the operations (in particular that
`pmem_pte_cleanup` returns `void` and therefore cannot fail) come from the
header itself.
-/

/-- Size in bytes of a standard page (4 KiB), the granularity at which the
rogue-page mechanism works. -/
def PAGE_SIZE : Nat := 4096

/-- Compile-time constant, from `pte_mmap.h`: `#define PMEM_USE_LARGE_PAGES 0`. -/
def PMEM_USE_LARGE_PAGES : Nat := 0

/-- Size in bytes of a large (2 MiB) page. -/
def LARGE_PAGE_SIZE : Nat := 2 ^ 21

/-- Modelled from the spec: the page size the rogue-page mechanism operates
on.  Large-page mode exists only behind the compile-time constant
`PMEM_USE_LARGE_PAGES`; in the default build the mechanism uses standard
pages. -/
def rogue_page_size : Nat :=
  if PMEM_USE_LARGE_PAGES ≠ 0 then LARGE_PAGE_SIZE else PAGE_SIZE

/-- Modelled from the spec: the error taxonomy of the core (section 7 of the
spec); `pte_mmap.c` is missing from the sources, the header only shows the
C result type `kern_return_t`. -/
inductive PmemErr where
  | NotMapped
  | AlreadyInitialized
  | Unsupported
  | NotInitialized
  | InvalidAddress
  | Fault
  | PartialTransfer
deriving DecidableEq, Repr

/-- Modelled from the spec: a hardware page-table entry — a physical frame
plus present / page-size / cache-control / writable flags. -/
structure PTE where
  present : Bool
  pageSize : Bool
  frame : Nat
  noCache : Bool
  writable : Bool
deriving DecidableEq, Repr

/-- Modelled from the spec: the active multi-level paging hierarchy the Page
Table Walker walks.  `mem base idx` is the entry at index `idx` of the table
whose physical base address is `base`; `cr3` is the root table. -/
structure Paging where
  cr3 : Nat
  mem : Nat → Nat → PTE

/-- Align a physical address down to its page boundary. -/
def alignDown (a : Nat) : Nat := a / PAGE_SIZE * PAGE_SIZE

/-- Modelled from the spec: `pmem_pte_vtop` (declared in `pte_mmap.h`, body in
the missing `pte_mmap.c`).  Walks the active 4-level hierarchy from the root
down, checking the present bit at each level, honouring a large-page leaf at
the two middle levels, and adding the intra-page offset to the resolved
frame; fails with `NotMapped` as soon as a level is absent. -/
def pmem_pte_vtop (pg : Paging) (vaddr : Nat) : Except PmemErr Nat :=
  let e4 := pg.mem pg.cr3 (vaddr / 2 ^ 39 % 512)
  if e4.present = false then .error .NotMapped else
  let e3 := pg.mem e4.frame (vaddr / 2 ^ 30 % 512)
  if e3.present = false then .error .NotMapped else
  if e3.pageSize then .ok (e3.frame + vaddr % 2 ^ 30) else
  let e2 := pg.mem e3.frame (vaddr / 2 ^ 21 % 512)
  if e2.present = false then .error .NotMapped else
  if e2.pageSize then .ok (e2.frame + vaddr % 2 ^ 21) else
  let e1 := pg.mem e2.frame (vaddr / 2 ^ 12 % 512)
  if e1.present = false then .error .NotMapped else
  .ok (e1.frame + vaddr % 2 ^ 12)

/-- Reference page-table walk, written from the spec's words as a generic
recursion over the list of level shifts, independently of the structure of
`pmem_pte_vtop`: at each level look up the entry, fail on an absent level,
stop at a leaf (last level, or a large-page entry below the root). -/
def referenceWalk (pg : Paging) (vaddr : Nat) : List Nat → Nat → Except PmemErr Nat
  | [], _ => .error .NotMapped
  | shift :: rest, base =>
    let e := pg.mem base (vaddr / 2 ^ shift % 512)
    if e.present = false then .error .NotMapped
    else if rest = [] ∨ (e.pageSize = true ∧ shift ≠ 39) then
      .ok (e.frame + vaddr % 2 ^ shift)
    else referenceWalk pg vaddr rest e.frame

/-- The reference translation: walk the four levels (shifts 39, 30, 21, 12)
from the root. -/
def refVtop (pg : Paging) (vaddr : Nat) : Except PmemErr Nat :=
  referenceWalk pg vaddr [39, 30, 21, 12] pg.cr3

/-- Some level of the paging hierarchy is absent for `vaddr`: the walk from
the root reaches a non-present entry before reaching a leaf. -/
def levelAbsent (pg : Paging) (vaddr : Nat) : Bool :=
  let e4 := pg.mem pg.cr3 (vaddr / 2 ^ 39 % 512)
  if e4.present = false then true else
  let e3 := pg.mem e4.frame (vaddr / 2 ^ 30 % 512)
  if e3.present = false then true else
  if e3.pageSize then false else
  let e2 := pg.mem e3.frame (vaddr / 2 ^ 21 % 512)
  if e2.present = false then true else
  if e2.pageSize then false else
  let e1 := pg.mem e2.frame (vaddr / 2 ^ 12 % 512)
  e1.present = false

/-- Modelled from the spec: the environment the driver runs in — which
physical frames fault on access (unmapped-equivalent holes), and which
physical frames back the live page-table structures used by the Walker
(the self-reference hazard set). -/
structure Env where
  hole : Nat → Bool
  tableFrames : List Nat

/-- Modelled from the spec: the mutable state of the core — physical memory
contents, the live paging structures, and the Rogue Page Manager's fields:
whether `init` has run, the reserved rogue virtual page, the cached physical
location (table base and index) of the rogue page's own PTE, the original
entry cached at `init` (safe default backing), the residual intra-page offset
recorded by the last `map_rogue`, whether the virtual range is still
reserved, plus logs of TLB invalidations (by virtual address) and of rogue
remaps (by physical frame) used to state the observable-trace properties. -/
structure PmemState where
  physMem : Nat → Nat
  paging : Paging
  initialized : Bool
  rogueVaddr : Nat
  pteBase : Nat
  pteIdx : Nat
  origPte : PTE
  rogueOffset : Nat
  vrangeReserved : Bool
  tlbLog : List Nat
  remapLog : List Nat

/-- Modelled from the spec: the walk `init` uses to locate the physical
location of a page's own final-level PTE; fails with `NotMapped` on an
absent level and with `Unsupported` on an unexpected large-page parent. -/
def pmem_pte_find_pte (pg : Paging) (vaddr : Nat) : Except PmemErr (Nat × Nat) :=
  let e4 := pg.mem pg.cr3 (vaddr / 2 ^ 39 % 512)
  if e4.present = false then .error .NotMapped else
  let e3 := pg.mem e4.frame (vaddr / 2 ^ 30 % 512)
  if e3.present = false then .error .NotMapped else
  if e3.pageSize then .error .Unsupported else
  let e2 := pg.mem e3.frame (vaddr / 2 ^ 21 % 512)
  if e2.present = false then .error .NotMapped else
  if e2.pageSize then .error .Unsupported else
  let e1 := pg.mem e2.frame (vaddr / 2 ^ 12 % 512)
  if e1.present = false then .error .NotMapped else
  .ok (e2.frame, vaddr / 2 ^ 12 % 512)

/-- Modelled from the spec: `pmem_pte_init` (declared in `pte_mmap.h`, body
in the missing `pte_mmap.c`).  Reserves a private virtual page (`vaddr`,
the reservation itself is an external allocation), walks to find and cache
the physical location of that page's own PTE and its original bits; fails
with `AlreadyInitialized` on a second call without an intervening cleanup,
and propagates the walk's `NotMapped`/`Unsupported`. -/
def pmem_pte_init (s : PmemState) (vaddr : Nat) : PmemState × Option PmemErr :=
  if s.initialized then (s, some .AlreadyInitialized)
  else
    match pmem_pte_find_pte s.paging vaddr with
    | .error e => (s, some e)
    | .ok (b, i) =>
      ({ s with
          initialized := true
          rogueVaddr := vaddr
          pteBase := b
          pteIdx := i
          origPte := s.paging.mem b i
          vrangeReserved := true }, none)

/-- Modelled from the spec: `pmem_pte_map_rogue` (declared in `pte_mmap.h`,
body in the missing `pte_mmap.c`).  Fails with `NotInitialized` before
`init`; rejects with `InvalidAddress` a target frame that overlaps the
physical memory backing the live page tables; otherwise aligns `paddr` down
to a page boundary, records the residual offset, rewrites only the frame
field of the cached PTE while setting the cache-disable flag, logs exactly
one TLB invalidation for the rogue page's virtual address, and logs the
remap.  On failure the state is returned unchanged. -/
def pmem_pte_map_rogue (env : Env) (s : PmemState) (paddr : Nat) :
    PmemState × Option PmemErr :=
  if s.initialized = false then (s, some .NotInitialized)
  else if alignDown paddr ∈ env.tableFrames then (s, some .InvalidAddress)
  else
    let old := s.paging.mem s.pteBase s.pteIdx
    let npte : PTE := { old with frame := alignDown paddr, noCache := true }
    ({ s with
        paging := { s.paging with
          mem := fun b i => if b = s.pteBase ∧ i = s.pteIdx then npte
                            else s.paging.mem b i }
        rogueOffset := paddr % PAGE_SIZE
        tlbLog := s.tlbLog ++ [s.rogueVaddr]
        remapLog := s.remapLog ++ [alignDown paddr] }, none)

/-- Modelled from the spec: `pmem_pte_cleanup` (declared in `pte_mmap.h` with
return type `void`, body in the missing `pte_mmap.c`).  Idempotent: when
initialized, restores the rogue page's PTE to the safe default cached at
`init`, invalidates the cached translation, and releases the reserved
virtual range; otherwise there is nothing to do.  It cannot fail. -/
def pmem_pte_cleanup (s : PmemState) : PmemState :=
  if s.initialized then
    { s with
        initialized := false
        paging := { s.paging with
          mem := fun b i => if b = s.pteBase ∧ i = s.pteIdx then s.origPte
                            else s.paging.mem b i }
        tlbLog := s.tlbLog ++ [s.rogueVaddr]
        vrangeReserved := false }
  else s

/-- Direction of an I/O request. -/
inductive Direction where
  | read
  | write
deriving DecidableEq, Repr

/-- Modelled from the spec: the Transfer Engine's split of the physical byte
range `[start, start + len)` into ascending page-aligned segments, each a
pair (segment start address, segment length).  Fuel-indexed loop; each
iteration consumes at least one byte, so `fuel = len` suffices. -/
def segmentsAux : Nat → Nat → Nat → List (Nat × Nat)
  | 0, _, _ => []
  | fuel + 1, start, len =>
    if len = 0 then []
    else
      let seg := min len (PAGE_SIZE - start % PAGE_SIZE)
      (start, seg) :: segmentsAux fuel (start + seg) (len - seg)

/-- The page-aligned segments of `[start, start + len)`. -/
def segments (start len : Nat) : List (Nat × Nat) := segmentsAux len start len

/-- Number of pages spanned by the physical byte range `[start, start+len)`
(meaningful for `0 < len`). -/
def numPages (start len : Nat) : Nat :=
  (start + len - 1) / PAGE_SIZE - start / PAGE_SIZE + 1

/-- Modelled from the spec: one segment of the Transfer Engine — remap the
rogue page to the segment's frame via `pmem_pte_map_rogue`, then copy
`seglen` bytes between the rogue virtual page (at the recorded intra-page
offset) and the caller buffer, in the direction of the request.  A hardware
fault while touching the target frame is caught and reported as `Fault`;
a copy that faults transfers nothing for its segment. -/
def pmem_copy_seg (env : Env) (dir : Direction) (s : PmemState)
    (paddr seglen : Nat) (buf : List Nat) :
    PmemState × List Nat × Option PmemErr :=
  match pmem_pte_map_rogue env s paddr with
  | (s1, some e) => (s1, [], some e)
  | (s1, none) =>
    let frame := alignDown paddr
    if env.hole frame then (s1, [], some .Fault)
    else
      match dir with
      | .read =>
        (s1, (List.range seglen).map fun i => s1.physMem (frame + s1.rogueOffset + i),
          none)
      | .write =>
        ({ s1 with physMem := fun a =>
            if frame + s1.rogueOffset ≤ a ∧ a < frame + s1.rogueOffset + seglen
            then buf.getD (a - (frame + s1.rogueOffset)) 0
            else s1.physMem a }, [], none)

/-- Modelled from the spec: the Transfer Engine's segment loop.  Runs the
segments in order, advancing the buffer cursor and accumulating read bytes
and the transferred byte count; on the first failing segment it aborts the
remaining segments and returns the count transferred so far together with
the failure reason. -/
def pmem_run_segs (env : Env) (dir : Direction) :
    PmemState → List Nat → List (Nat × Nat) →
    PmemState × List Nat × Nat × Option PmemErr
  | s, _, [] => (s, [], 0, none)
  | s, buf, (p, l) :: rest =>
    match pmem_copy_seg env dir s p l (buf.take l) with
    | (s1, _, some e) => (s1, [], 0, some e)
    | (s1, out, none) =>
      let r := pmem_run_segs env dir s1 (buf.drop l) rest
      (r.1, out ++ r.2.1, l + r.2.2.1, r.2.2.2)

/-- Modelled from the spec: `pmem_readwrite_rogue` (declared in `pte_mmap.h`,
body in the missing `pte_mmap.c`).  Splits the request's physical range into
ascending page-aligned segments and drives the per-segment remap-and-copy
loop, returning the final state, the bytes read, the transferred byte count
and an optional failure reason. -/
def pmem_readwrite_rogue (env : Env) (dir : Direction) (s : PmemState)
    (buf : List Nat) (start len : Nat) :
    PmemState × List Nat × Nat × Option PmemErr :=
  pmem_run_segs env dir s buf (segments start len)

/-- Whether a segment starting at physical address `paddr` fails, and how:
its frame may overlap the live page tables (`InvalidAddress` from the remap)
or be an unmapped-equivalent hole (`Fault` during the copy). -/
def segFails (env : Env) (paddr : Nat) : Option PmemErr :=
  if alignDown paddr ∈ env.tableFrames then some .InvalidAddress
  else if env.hole (alignDown paddr) then some .Fault
  else none

/-- The reference read of the physical byte range `[start, start+len)`,
taken directly from physical memory without the rogue-page machinery. -/
def referenceRead (s : PmemState) (start len : Nat) : List Nat :=
  (List.range len).map fun i => s.physMem (start + i)

/-- The current content of the rogue page's own PTE: the entry at the
cached location in the state's paging structures. -/
def roguePte (s : PmemState) : PTE := s.paging.mem s.pteBase s.pteIdx

/-- Concrete example paging hierarchy: virtual page 0 is mapped through the
tables at physical `0x1000` (root), `0x2000`, `0x3000`, `0x4000` to the
physical frame `0x5000`; everything else is absent. -/
def pg_ex : Paging where
  cr3 := 0x1000
  mem := fun b i =>
    if b = 0x1000 ∧ i = 0 then ⟨true, false, 0x2000, false, true⟩
    else if b = 0x2000 ∧ i = 0 then ⟨true, false, 0x3000, false, true⟩
    else if b = 0x3000 ∧ i = 0 then ⟨true, false, 0x4000, false, true⟩
    else if b = 0x4000 ∧ i = 0 then ⟨true, false, 0x5000, false, true⟩
    else ⟨false, false, 0, false, false⟩

/-- Concrete example environment: no physical holes; the live page tables of
`pg_ex` occupy frames `0x1000`–`0x4000`. -/
def env_ex : Env where
  hole := fun _ => false
  tableFrames := [0x1000, 0x2000, 0x3000, 0x4000]

/-- Concrete example state after a successful `init` on `pg_ex`. -/
def st_ex : PmemState where
  physMem := fun a => a % 256
  paging := pg_ex
  initialized := true
  rogueVaddr := 0
  pteBase := 0x4000
  pteIdx := 0
  origPte := ⟨true, false, 0x5000, false, true⟩
  rogueOffset := 0
  vrangeReserved := true
  tlbLog := []
  remapLog := []

/-- Concrete example state before any `init`. -/
def st_un : PmemState where
  physMem := fun _ => 0
  paging := pg_ex
  initialized := false
  rogueVaddr := 0
  pteBase := 0
  pteIdx := 0
  origPte := ⟨false, false, 0, false, false⟩
  rogueOffset := 0
  vrangeReserved := false
  tlbLog := []
  remapLog := []

/-- The hand-unrolled walk and the generic reference walk agree everywhere. -/
theorem vtop_eq_refVtop (pg : Paging) (v : Nat) :
    pmem_pte_vtop pg v = refVtop pg v := by
  simp only [pmem_pte_vtop, refVtop, referenceWalk]
  simp

/-- If some level of the hierarchy is absent for `v`, the walk fails with
`NotMapped`. -/
theorem vtop_levelAbsent (pg : Paging) (v : Nat)
    (h : levelAbsent pg v = true) :
    pmem_pte_vtop pg v = .error .NotMapped := by
  simp only [pmem_pte_vtop, levelAbsent] at h ⊢
  split_ifs at h ⊢ <;> simp_all

/-- Claim C2: for every virtual address `V`, `vtop(V)` returns the same
physical address as an independent reference page-table walk (hence in
particular when `V` is mapped), and fails with `NotMapped` when any level of
the paging hierarchy is absent for `V`. -/
theorem pmem_C2 (pg : Paging) (v : Nat) :
    pmem_pte_vtop pg v = refVtop pg v ∧
    (levelAbsent pg v = true → pmem_pte_vtop pg v = .error .NotMapped) :=
  ⟨vtop_eq_refVtop pg v, vtop_levelAbsent pg v⟩

/-- Witness for C2 at the concrete hierarchy `pg_ex`: virtual address `7` is
mapped and both walks give `0x5007`; for virtual address `4096` a level is
absent and `vtop` fails with `NotMapped`. -/
theorem pmem_C2_witness :
    pmem_pte_vtop pg_ex 7 = refVtop pg_ex 7 ∧
    pmem_pte_vtop pg_ex 7 = .ok 0x5007 ∧
    pmem_pte_vtop pg_ex 4096 = .error .NotMapped :=
  ⟨(pmem_C2 pg_ex 7).1, rfl, (pmem_C2 pg_ex 4096).2 (by decide)⟩

/-- Claim C3: in the initialized state, `map_rogue` on a physical address
whose page frame overlaps the physical memory backing the live page tables
is rejected with `InvalidAddress`, and the state — in particular the rogue
page's mapping — is returned unchanged. -/
theorem pmem_C3 (env : Env) (s : PmemState) (paddr : Nat)
    (hinit : s.initialized = true)
    (hover : alignDown paddr ∈ env.tableFrames) :
    pmem_pte_map_rogue env s paddr = (s, some .InvalidAddress) := by
  simp [pmem_pte_map_rogue, hinit, hover]

/-- Witness for C3: `0x1234` lies in the frame `0x1000`, which backs the
root table of `pg_ex`, so the remap is rejected and `st_ex` is unchanged. -/
theorem pmem_C3_witness :
    pmem_pte_map_rogue env_ex st_ex 0x1234 = (st_ex, some .InvalidAddress) :=
  pmem_C3 env_ex st_ex 0x1234 rfl (by decide)

/-- Claim C7: in the initialized state, on a permitted physical address,
`map_rogue` succeeds, records the residual intra-page offset, rewrites the
cached rogue PTE to the aligned-down frame with the cache-disable flag set
while preserving every other field of the entry, invalidates the translation
cache exactly once and only for the rogue page's virtual address, and
modifies no other page-table entry. -/
theorem pmem_C7 (env : Env) (s : PmemState) (paddr : Nat)
    (hinit : s.initialized = true)
    (hok : alignDown paddr ∉ env.tableFrames) :
    (pmem_pte_map_rogue env s paddr).2 = none ∧
    (pmem_pte_map_rogue env s paddr).1.rogueOffset = paddr % PAGE_SIZE ∧
    (pmem_pte_map_rogue env s paddr).1.paging.mem s.pteBase s.pteIdx =
      { s.paging.mem s.pteBase s.pteIdx with
          frame := alignDown paddr, noCache := true } ∧
    (∀ b i, ¬(b = s.pteBase ∧ i = s.pteIdx) →
      (pmem_pte_map_rogue env s paddr).1.paging.mem b i = s.paging.mem b i) ∧
    (pmem_pte_map_rogue env s paddr).1.tlbLog = s.tlbLog ++ [s.rogueVaddr] := by
  refine ⟨?_, ?_, ?_, fun b i hbi => ?_, ?_⟩ <;>
    simp [pmem_pte_map_rogue, hinit, hok, *]

/-- Witness for C7: mapping `st_ex` to `0x123456` (frame `0x123000`, offset
`0x456`) succeeds with the stated effects. -/
theorem pmem_C7_witness :
    (pmem_pte_map_rogue env_ex st_ex 0x123456).2 = none ∧
    (pmem_pte_map_rogue env_ex st_ex 0x123456).1.rogueOffset = 0x456 ∧
    (pmem_pte_map_rogue env_ex st_ex 0x123456).1.tlbLog = [0] :=
  ⟨(pmem_C7 env_ex st_ex 0x123456 rfl (by decide)).1,
   (pmem_C7 env_ex st_ex 0x123456 rfl (by decide)).2.1,
   (pmem_C7 env_ex st_ex 0x123456 rfl (by decide)).2.2.2.2⟩

/-- Claim C8: `cleanup` is idempotent and always succeeds (it is `void` in
`pte_mmap.h`, so it has no failure channel): cleaning an initialized state
restores the rogue page's PTE to the safe default cached at `init`,
invalidates its cached translation, and releases the reserved virtual
range; cleaning an uninitialized state does nothing. -/
theorem pmem_C8 (s : PmemState) :
    pmem_pte_cleanup (pmem_pte_cleanup s) = pmem_pte_cleanup s ∧
    (s.initialized = true →
      (pmem_pte_cleanup s).initialized = false ∧
      (pmem_pte_cleanup s).vrangeReserved = false ∧
      (pmem_pte_cleanup s).paging.mem s.pteBase s.pteIdx = s.origPte ∧
      (pmem_pte_cleanup s).tlbLog = s.tlbLog ++ [s.rogueVaddr]) ∧
    (s.initialized = false → pmem_pte_cleanup s = s) := by
  cases h : s.initialized <;> simp [pmem_pte_cleanup, h]

/-- Witness for C8 on the initialized state `st_ex`. -/
theorem pmem_C8_witness :
    pmem_pte_cleanup (pmem_pte_cleanup st_ex) = pmem_pte_cleanup st_ex ∧
    (pmem_pte_cleanup st_ex).initialized = false ∧
    (pmem_pte_cleanup st_ex).vrangeReserved = false ∧
    (pmem_pte_cleanup st_ex).paging.mem st_ex.pteBase st_ex.pteIdx =
      st_ex.origPte :=
  ⟨(pmem_C8 st_ex).1, ((pmem_C8 st_ex).2.1 rfl).1,
   ((pmem_C8 st_ex).2.1 rfl).2.1, ((pmem_C8 st_ex).2.1 rfl).2.2.1⟩

/-- Counterexample for C5 as stated: in the Uninitialized state not *every*
operation other than `init` fails with `NotInitialized`.  `cleanup` —
declared `void` in `pte_mmap.h`, hence without a failure channel — returns
normally (and idempotently), and the Page Table Walker's `vtop` translates a
mapped address successfully without any initialization. -/
theorem pmem_C5_counterexample :
    st_un.initialized = false ∧
    pmem_pte_cleanup st_un = st_un ∧
    pmem_pte_vtop pg_ex 7 = .ok 0x5007 :=
  ⟨rfl, rfl, rfl⟩

/-- Claim C5, amended: in the Uninitialized state (before the first `init`,
or after any `cleanup`), the rogue-page operations — `map_rogue`, and
`readwrite_rogue` on any request with a nonempty range — fail with
`NotInitialized` and do not modify any page-table state (the state is
returned unchanged); `vtop` needs no initialization and `cleanup` has no
failure channel, so they are exempt. -/
theorem pmem_C5 (env : Env) (s : PmemState) (paddr : Nat) (dir : Direction)
    (buf : List Nat) (start len : Nat) (h : s.initialized = false) :
    pmem_pte_map_rogue env s paddr = (s, some .NotInitialized) ∧
    (0 < len →
      pmem_readwrite_rogue env dir s buf start len =
        (s, [], 0, some .NotInitialized)) := by
  constructor
  · simp [pmem_pte_map_rogue, h]
  · intro hlen
    cases len with
    | zero => omega
    | succ n =>
      simp [pmem_readwrite_rogue, segments, segmentsAux, pmem_run_segs,
        pmem_copy_seg, pmem_pte_map_rogue, h]

/-- Witness for C5 (amended) on the uninitialized state `st_un`. -/
theorem pmem_C5_witness :
    pmem_pte_map_rogue env_ex st_un 0x5000 = (st_un, some .NotInitialized) ∧
    pmem_readwrite_rogue env_ex .read st_un [] 0x5000 16 =
      (st_un, [], 0, some .NotInitialized) :=
  ⟨(pmem_C5 env_ex st_un 0x5000 .read [] 0x5000 16 rfl).1,
   (pmem_C5 env_ex st_un 0x5000 .read [] 0x5000 16 rfl).2 (by decide)⟩

/-- Claim C10: the compile-time constant `PMEM_USE_LARGE_PAGES` equals `0`
in the default build, so the rogue-page mechanism operates on standard-size
pages and large-page mode is disabled. -/
theorem pmem_C10 : PMEM_USE_LARGE_PAGES = 0 ∧ rogue_page_size = PAGE_SIZE :=
  ⟨rfl, by decide⟩

theorem segmentsAux_zero_len (fuel start : Nat) : segmentsAux fuel start 0 = [] := by
  cases fuel <;> simp [segmentsAux]

theorem gap_pos (start : Nat) : 0 < PAGE_SIZE - start % PAGE_SIZE := by
  have h : start % PAGE_SIZE < PAGE_SIZE := Nat.mod_lt _ (by decide)
  omega

/-- The fuel used by `segmentsAux` is irrelevant as long as it covers the
remaining length. -/
theorem segmentsAux_congr :
    ∀ fuel fuel' start len, len ≤ fuel → len ≤ fuel' →
      segmentsAux fuel start len = segmentsAux fuel' start len := by
  intro fuel
  induction fuel with
  | zero =>
    intro fuel' start len h _
    have hlen : len = 0 := by omega
    subst hlen
    rw [segmentsAux_zero_len, segmentsAux_zero_len]
  | succ f ih =>
    intro fuel' start len h h'
    cases hl : len with
    | zero => rw [segmentsAux_zero_len, segmentsAux_zero_len]
    | succ n =>
      subst hl
      cases fuel' with
      | zero => omega
      | succ f' =>
        have hgap := gap_pos start
        simp only [segmentsAux, Nat.succ_ne_zero, if_false]
        have hseg : 0 < min (n + 1) (PAGE_SIZE - start % PAGE_SIZE) := by omega
        rw [ih f' _ _ (by omega) (by omega)]

/-- Unfolding `segments` at zero length. -/
theorem segments_zero (start : Nat) : segments start 0 = [] := rfl

/-- One-step unfolding of `segments` at positive length. -/
theorem segments_pos (start len : Nat) (h : 0 < len) :
    segments start len =
      (start, min len (PAGE_SIZE - start % PAGE_SIZE)) ::
        segments (start + min len (PAGE_SIZE - start % PAGE_SIZE))
                 (len - min len (PAGE_SIZE - start % PAGE_SIZE)) := by
  cases hl : len with
  | zero => omega
  | succ n =>
    subst hl
    have hgap := gap_pos start
    have hseg : 0 < min (n + 1) (PAGE_SIZE - start % PAGE_SIZE) := by omega
    show segmentsAux (n + 1) start (n + 1) = _
    simp only [segmentsAux, Nat.succ_ne_zero, if_false]
    rw [segments]
    exact congrArg _ (segmentsAux_congr _ _ _ _ (by omega) (by omega))

/-- The segment lengths sum to the request length. -/
theorem segments_sum :
    ∀ len start, ((segments start len).map fun q => q.2).sum = len := by
  intro len
  induction len using Nat.strong_induction_on with
  | _ len ih =>
    intro start
    cases hl : len with
    | zero => simp [segments_zero]
    | succ n =>
      subst hl
      rw [segments_pos start _ (by omega)]
      have hgap := gap_pos start
      have hseg : 0 < min (n + 1) (PAGE_SIZE - start % PAGE_SIZE) := by omega
      have hle : min (n + 1) (PAGE_SIZE - start % PAGE_SIZE) ≤ n + 1 := by omega
      simp only [List.map_cons, List.sum_cons]
      rw [ih _ (by omega)]
      omega

theorem numPages_single (start len : Nat) (h1 : 0 < len)
    (h2 : len ≤ PAGE_SIZE - start % PAGE_SIZE) : numPages start len = 1 := by
  simp only [numPages, PAGE_SIZE] at *
  omega

theorem numPages_step (start len : Nat)
    (h : PAGE_SIZE - start % PAGE_SIZE < len) :
    numPages start len =
      numPages (start + (PAGE_SIZE - start % PAGE_SIZE))
               (len - (PAGE_SIZE - start % PAGE_SIZE)) + 1 := by
  simp only [numPages, PAGE_SIZE] at *
  omega

/-- The engine issues one segment per page spanned by the request. -/
theorem segments_length :
    ∀ len start, 0 < len → (segments start len).length = numPages start len := by
  intro len
  induction len using Nat.strong_induction_on with
  | _ len ih =>
    intro start hpos
    rw [segments_pos start _ hpos]
    have hgap := gap_pos start
    by_cases hc : len ≤ PAGE_SIZE - start % PAGE_SIZE
    · have hm : min len (PAGE_SIZE - start % PAGE_SIZE) = len := by omega
      rw [hm]
      simp [segments_zero, numPages_single start len hpos hc]
    · have hm : min len (PAGE_SIZE - start % PAGE_SIZE) =
        PAGE_SIZE - start % PAGE_SIZE := by omega
      rw [hm, numPages_step start len (by omega)]
      simp only [List.length_cons]
      rw [ih _ (by omega) _ (by omega)]

theorem alignDown_lt_next (start : Nat) :
    alignDown start < alignDown (start + (PAGE_SIZE - start % PAGE_SIZE)) := by
  simp only [alignDown, PAGE_SIZE] at *
  omega

/-- The per-segment frames (segment starts aligned down) are strictly
ascending. -/
theorem segments_frames_ascending :
    ∀ len start,
      List.Chain' (fun a b => a < b)
        ((segments start len).map fun q => alignDown q.1) := by
  intro len
  induction len using Nat.strong_induction_on with
  | _ len ih =>
    intro start
    cases hl : len with
    | zero => simp [segments_zero]
    | succ n =>
      subst hl
      rw [segments_pos start _ (by omega)]
      have hgap := gap_pos start
      by_cases hc : n + 1 ≤ PAGE_SIZE - start % PAGE_SIZE
      · have hm : min (n + 1) (PAGE_SIZE - start % PAGE_SIZE) = n + 1 := by omega
        rw [hm]
        simp [segments_zero]
      · have hm : min (n + 1) (PAGE_SIZE - start % PAGE_SIZE) =
          PAGE_SIZE - start % PAGE_SIZE := by omega
        rw [hm]
        have hrest : 0 < n + 1 - (PAGE_SIZE - start % PAGE_SIZE) := by omega
        rw [segments_pos _ _ hrest]
        simp only [List.map_cons]
        refine List.Chain'.cons ?_ ?_
        · exact alignDown_lt_next start
        · have := ih (n + 1 - (PAGE_SIZE - start % PAGE_SIZE)) (by omega)
            (start + (PAGE_SIZE - start % PAGE_SIZE))
          rwa [segments_pos _ _ hrest, List.map_cons] at this

/-- Every segment lies inside a single page. -/
theorem segments_within :
    ∀ len start q, q ∈ segments start len →
      0 < q.2 ∧ q.1 % PAGE_SIZE + q.2 ≤ PAGE_SIZE := by
  intro len
  induction len using Nat.strong_induction_on with
  | _ len ih =>
    intro start q hq
    cases hl : len with
    | zero => subst hl; simp [segments_zero] at hq
    | succ n =>
      subst hl
      rw [segments_pos start _ (by omega)] at hq
      have hgap := gap_pos start
      have hmod : start % PAGE_SIZE < PAGE_SIZE := Nat.mod_lt _ (by decide)
      rcases List.mem_cons.mp hq with hq | hq
      · subst hq
        constructor
        · simp only
          omega
        · simp only
          omega
      · exact ih _ (by omega) _ _ hq

theorem segFails_none_elim (env : Env) (p : Nat) (h : segFails env p = none) :
    alignDown p ∉ env.tableFrames ∧ env.hole (alignDown p) = false := by
  simp only [segFails] at h
  split_ifs at h with h1 h2 <;> simp_all

/-- The effect of a successful `map_rogue`, as one explicit state. -/
theorem map_rogue_ok_eq (env : Env) (s : PmemState) (paddr : Nat)
    (hinit : s.initialized = true) (hok : alignDown paddr ∉ env.tableFrames) :
    pmem_pte_map_rogue env s paddr =
      ({ s with
          paging := { s.paging with
            mem := fun b i => if b = s.pteBase ∧ i = s.pteIdx then
                { s.paging.mem s.pteBase s.pteIdx with
                    frame := alignDown paddr, noCache := true }
              else s.paging.mem b i }
          rogueOffset := paddr % PAGE_SIZE
          tlbLog := s.tlbLog ++ [s.rogueVaddr]
          remapLog := s.remapLog ++ [alignDown paddr] }, none) := by
  simp [pmem_pte_map_rogue, hinit, hok]

theorem alignDown_add_mod (p : Nat) : alignDown p + p % PAGE_SIZE = p := by
  simp only [alignDown, PAGE_SIZE]
  omega

/-- A successful read segment returns exactly the bytes of the segment's
physical range, and leaves the state as the remap left it. -/
theorem copy_seg_read_ok (env : Env) (s : PmemState) (p l : Nat)
    (buf : List Nat) (hinit : s.initialized = true)
    (hfail : segFails env p = none) :
    pmem_copy_seg env .read s p l buf =
      ((pmem_pte_map_rogue env s p).1,
        (List.range l).map (fun i => s.physMem (p + i)), none) := by
  obtain ⟨h1, h2⟩ := segFails_none_elim env p hfail
  simp only [pmem_copy_seg]
  rw [map_rogue_ok_eq env s p hinit h1]
  simp only [h2]
  simp only [alignDown_add_mod]
  rfl

theorem map_range_append (f : Nat → Nat) (start a b : Nat) :
    (List.range a).map (fun i => f (start + i)) ++
      (List.range b).map (fun i => f (start + a + i)) =
    (List.range (a + b)).map fun i => f (start + i) := by
  rw [List.range_add a b, List.map_append, List.map_map]
  refine congrArg _ (List.map_congr_left fun i _ => ?_)
  simp [Nat.add_assoc]

theorem run_segs_cons_ok (env : Env) (dir : Direction) (s : PmemState)
    (buf : List Nat) (p l : Nat) (rest : List (Nat × Nat)) (s1 : PmemState)
    (out : List Nat)
    (h : pmem_copy_seg env dir s p l (buf.take l) = (s1, out, none)) :
    pmem_run_segs env dir s buf ((p, l) :: rest) =
      ((pmem_run_segs env dir s1 (buf.drop l) rest).1,
       out ++ (pmem_run_segs env dir s1 (buf.drop l) rest).2.1,
       l + (pmem_run_segs env dir s1 (buf.drop l) rest).2.2.1,
       (pmem_run_segs env dir s1 (buf.drop l) rest).2.2.2) := by
  simp only [pmem_run_segs, h]

theorem run_segs_cons_err (env : Env) (dir : Direction) (s : PmemState)
    (buf : List Nat) (p l : Nat) (rest : List (Nat × Nat)) (s1 : PmemState)
    (out : List Nat) (e : PmemErr)
    (h : pmem_copy_seg env dir s p l (buf.take l) = (s1, out, some e)) :
    pmem_run_segs env dir s buf ((p, l) :: rest) = (s1, [], 0, some e) := by
  simp only [pmem_run_segs, h]

theorem run_read_ok (env : Env) :
    ∀ len start s buf,
      s.initialized = true →
      (∀ q ∈ segments start len, segFails env q.1 = none) →
      ∃ s', pmem_run_segs env .read s buf (segments start len) =
          (s', referenceRead s start len, len, none) ∧
        s'.physMem = s.physMem ∧ s'.initialized = true ∧
        s'.pteBase = s.pteBase ∧ s'.pteIdx = s.pteIdx ∧
        s'.rogueVaddr = s.rogueVaddr ∧ s'.origPte = s.origPte ∧
        s'.remapLog = s.remapLog ++
          ((segments start len).map fun q => alignDown q.1) := by
  intro len
  induction len using Nat.strong_induction_on with
  | _ len ih =>
    intro start s buf hinit hok
    cases hl : len with
    | zero =>
      subst hl
      refine ⟨s, ?_⟩
      simp [segments_zero, pmem_run_segs, referenceRead, hinit]
    | succ n =>
      subst hl
      have hgap := gap_pos start
      have hpos : 0 < n + 1 := by omega
      rw [segments_pos start _ hpos] at hok ⊢
      have hseg1 : 0 < min (n + 1) (PAGE_SIZE - start % PAGE_SIZE) := by omega
      have hsegle : min (n + 1) (PAGE_SIZE - start % PAGE_SIZE) ≤ n + 1 := by
        omega
      have hheadok : segFails env start = none := by
        have h := hok (start, min (n + 1) (PAGE_SIZE - start % PAGE_SIZE))
          (List.mem_cons_self _ _)
        simpa using h
      have htailok : ∀ q ∈ segments
          (start + min (n + 1) (PAGE_SIZE - start % PAGE_SIZE))
          (n + 1 - min (n + 1) (PAGE_SIZE - start % PAGE_SIZE)),
          segFails env q.1 = none := fun q hq =>
        hok q (List.mem_cons_of_mem _ hq)
      obtain ⟨h1, _⟩ := segFails_none_elim env start hheadok
      have hcopy := copy_seg_read_ok env s start
        (min (n + 1) (PAGE_SIZE - start % PAGE_SIZE))
        (buf.take (min (n + 1) (PAGE_SIZE - start % PAGE_SIZE))) hinit hheadok
      have hs1 := map_rogue_ok_eq env s start hinit h1
      have hs1phys : (pmem_pte_map_rogue env s start).1.physMem = s.physMem := by
        rw [hs1]
      have hs1init : (pmem_pte_map_rogue env s start).1.initialized = true := by
        rw [hs1]; exact hinit
      have hs1b : (pmem_pte_map_rogue env s start).1.pteBase = s.pteBase := by
        rw [hs1]
      have hs1i : (pmem_pte_map_rogue env s start).1.pteIdx = s.pteIdx := by
        rw [hs1]
      have hs1v : (pmem_pte_map_rogue env s start).1.rogueVaddr = s.rogueVaddr := by
        rw [hs1]
      have hs1o : (pmem_pte_map_rogue env s start).1.origPte = s.origPte := by
        rw [hs1]
      have hs1r : (pmem_pte_map_rogue env s start).1.remapLog =
          s.remapLog ++ [alignDown start] := by
        rw [hs1]
      obtain ⟨s', hrun, hphys, hinit', hb, hi, hv, ho, hremap⟩ :=
        ih (n + 1 - min (n + 1) (PAGE_SIZE - start % PAGE_SIZE)) (by omega)
          (start + min (n + 1) (PAGE_SIZE - start % PAGE_SIZE))
          ((pmem_pte_map_rogue env s start).1)
          (buf.drop (min (n + 1) (PAGE_SIZE - start % PAGE_SIZE)))
          hs1init htailok
      rw [run_segs_cons_ok env .read s buf start
        (min (n + 1) (PAGE_SIZE - start % PAGE_SIZE)) _ _ _ hcopy, hrun]
      have hrr : referenceRead (pmem_pte_map_rogue env s start).1
          (start + min (n + 1) (PAGE_SIZE - start % PAGE_SIZE))
          (n + 1 - min (n + 1) (PAGE_SIZE - start % PAGE_SIZE)) =
          referenceRead s
          (start + min (n + 1) (PAGE_SIZE - start % PAGE_SIZE))
          (n + 1 - min (n + 1) (PAGE_SIZE - start % PAGE_SIZE)) := by
        unfold referenceRead
        rw [hs1phys]
      refine ⟨s', ?_⟩
      simp only [Prod.mk.injEq]
      refine ⟨⟨trivial, ?_, by omega, trivial⟩, hphys.trans hs1phys, hinit',
        hb.trans hs1b, hi.trans hs1i, hv.trans hs1v, ho.trans hs1o, ?_⟩
      · rw [hrr]
        unfold referenceRead
        rw [map_range_append s.physMem start _ _]
        have hc : (n + 1) ⊓ (PAGE_SIZE - start % PAGE_SIZE) +
            (n + 1 - (n + 1) ⊓ (PAGE_SIZE - start % PAGE_SIZE)) = n + 1 := by
          omega
        rw [hc]
      · rw [hremap, hs1r, List.map_cons, List.append_assoc]
        rfl

/-- Claim C1: a read request over a physical range spanning `K` pages is
split into ascending page-aligned segments (each inside one page, lengths
summing to the request length); when no segment faults, the engine issues
exactly `K` remaps (one per segment) with strictly ascending frame
addresses, and the concatenation of the per-segment copies equals a
reference read of the full physical range. -/
theorem pmem_C1 (env : Env) (s : PmemState) (buf : List Nat) (start len : Nat)
    (hinit : s.initialized = true) (hlen : 0 < len)
    (hok : ∀ q ∈ segments start len, segFails env q.1 = none) :
    (∀ q ∈ segments start len, 0 < q.2 ∧ q.1 % PAGE_SIZE + q.2 ≤ PAGE_SIZE) ∧
    ((segments start len).map fun q => q.2).sum = len ∧
    (segments start len).length = numPages start len ∧
    List.Pairwise (fun a b => a < b)
      ((segments start len).map fun q => alignDown q.1) ∧
    ∃ s', pmem_readwrite_rogue env .read s buf start len =
        (s', referenceRead s start len, len, none) ∧
      s'.remapLog = s.remapLog ++
        ((segments start len).map fun q => alignDown q.1) := by
  refine ⟨fun q hq => segments_within len start q hq, segments_sum len start,
    segments_length len start hlen,
    List.chain'_iff_pairwise.mp (segments_frames_ascending len start), ?_⟩
  obtain ⟨s', hrun, _, _, _, _, _, _, hremap⟩ :=
    run_read_ok env len start s buf hinit hok
  exact ⟨s', hrun, hremap⟩

/-- Witness for C1: reading 10 bytes at physical `0x11ffa` on `st_ex` spans
two pages, returns the reference bytes, transfers 10 bytes with no error,
and logs the two ascending remaps `0x11000`, `0x12000`. -/
theorem pmem_C1_witness :
    (pmem_readwrite_rogue env_ex .read st_ex [] 0x11ffa 10).2.1 =
      referenceRead st_ex 0x11ffa 10 ∧
    (pmem_readwrite_rogue env_ex .read st_ex [] 0x11ffa 10).2.2.1 = 10 ∧
    (pmem_readwrite_rogue env_ex .read st_ex [] 0x11ffa 10).2.2.2 = none ∧
    (pmem_readwrite_rogue env_ex .read st_ex [] 0x11ffa 10).1.remapLog =
      [0x11000, 0x12000] := by
  obtain ⟨-, -, -, -, s', hrun, hremap⟩ :=
    pmem_C1 env_ex st_ex [] 0x11ffa 10 rfl (by decide) (by decide)
  rw [hrun]
  refine ⟨rfl, rfl, rfl, ?_⟩
  show s'.remapLog = _
  rw [hremap]
  decide

theorem copy_seg_err_eq (env : Env) (dir : Direction) (s : PmemState)
    (p l : Nat) (buf : List Nat) (e : PmemErr)
    (hinit : s.initialized = true) (hfail : segFails env p = some e) :
    ∃ s1, pmem_copy_seg env dir s p l buf = (s1, [], some e) ∧
      s1.initialized = true := by
  simp only [segFails] at hfail
  split_ifs at hfail with h1 h2
  · cases hfail
    refine ⟨s, ?_, hinit⟩
    have hmr : pmem_pte_map_rogue env s p = (s, some .InvalidAddress) := by
      simp [pmem_pte_map_rogue, hinit, h1]
    simp [pmem_copy_seg, hmr]
  · cases hfail
    refine ⟨(pmem_pte_map_rogue env s p).1, ?_, ?_⟩
    · simp only [pmem_copy_seg]
      rw [map_rogue_ok_eq env s p hinit h1]
      simp [h2]
    · rw [map_rogue_ok_eq env s p hinit h1]
      exact hinit

theorem copy_seg_ok_any (env : Env) (dir : Direction) (s : PmemState)
    (p l : Nat) (buf : List Nat)
    (hinit : s.initialized = true) (hfail : segFails env p = none) :
    ∃ s1 out, pmem_copy_seg env dir s p l buf = (s1, out, none) ∧
      s1.initialized = true := by
  obtain ⟨h1, h2⟩ := segFails_none_elim env p hfail
  cases dir with
  | read =>
    refine ⟨(pmem_pte_map_rogue env s p).1, _,
      copy_seg_read_ok env s p l buf hinit hfail, ?_⟩
    rw [map_rogue_ok_eq env s p hinit h1]
    exact hinit
  | write =>
    simp only [pmem_copy_seg]
    rw [map_rogue_ok_eq env s p hinit h1]
    simp only [h2]
    exact ⟨_, [], rfl, hinit⟩

/-- On the first failing segment the loop aborts and reports the byte count
of the completed segments together with the failure reason. -/
theorem run_abort (env : Env) (dir : Direction) :
    ∀ pre : List (Nat × Nat), ∀ s buf p l post e,
      s.initialized = true →
      (∀ q ∈ pre, segFails env q.1 = none) →
      segFails env p = some e →
      (pmem_run_segs env dir s buf (pre ++ (p, l) :: post)).2.2 =
        ((pre.map fun q => q.2).sum, some e) := by
  intro pre
  induction pre with
  | nil =>
    intro s buf p l post e hinit _ hfail
    obtain ⟨s1, hcs, _⟩ := copy_seg_err_eq env dir s p l (buf.take l) e hinit hfail
    rw [List.nil_append, run_segs_cons_err env dir s buf p l post s1 [] e hcs]
    simp
  | cons q pre ih =>
    intro s buf p l post e hinit hpre hfail
    obtain ⟨qp, ql⟩ := q
    obtain ⟨s1, out, hcs, hinit1⟩ := copy_seg_ok_any env dir s qp ql
      (buf.take ql) hinit (by
        have h := hpre (qp, ql) (List.mem_cons_self _ _)
        simpa using h)
    rw [List.cons_append, run_segs_cons_ok env dir s buf qp ql _ s1 out hcs]
    have h1' : (pmem_run_segs env dir s1 (buf.drop ql)
        (pre ++ (p, l) :: post)).2.2.1 = (pre.map fun q => q.2).sum := by
      rw [ih s1 (buf.drop ql) p l post e hinit1
        (fun q hq => hpre q (List.mem_cons_of_mem _ hq)) hfail]
    have h2' : (pmem_run_segs env dir s1 (buf.drop ql)
        (pre ++ (p, l) :: post)).2.2.2 = some e := by
      rw [ih s1 (buf.drop ql) p l post e hinit1
        (fun q hq => hpre q (List.mem_cons_of_mem _ hq)) hfail]
    show (ql + (pmem_run_segs env dir s1 (buf.drop ql)
        (pre ++ (p, l) :: post)).2.2.1,
      (pmem_run_segs env dir s1 (buf.drop ql)
        (pre ++ (p, l) :: post)).2.2.2) = _
    rw [h1', h2']
    simp

/-- Claim C4: for every request (either direction), if the segments split as
a successful prefix followed by a failing segment, the engine aborts there
and returns the byte count of the completed prefix together with the
failure reason — the partial count is reported, not discarded. -/
theorem pmem_C4 (env : Env) (dir : Direction) (s : PmemState) (buf : List Nat)
    (start len : Nat) (pre post : List (Nat × Nat)) (p l : Nat) (e : PmemErr)
    (hinit : s.initialized = true)
    (hsplit : segments start len = pre ++ (p, l) :: post)
    (hpre : ∀ q ∈ pre, segFails env q.1 = none)
    (hfail : segFails env p = some e) :
    (pmem_readwrite_rogue env dir s buf start len).2.2 =
      ((pre.map fun q => q.2).sum, some e) := by
  show (pmem_run_segs env dir s buf (segments start len)).2.2 = _
  rw [hsplit]
  exact run_abort env dir pre s buf p l post e hinit hpre hfail

/-- Witness for C4: reading 10 bytes at `4090` on `st_ex` covers segments
`(4090, 6)` and `(4096, 4)`; the second segment's frame `0x1000` backs the
live page tables, so the engine stops after 6 bytes with `InvalidAddress`. -/
theorem pmem_C4_witness :
    (pmem_readwrite_rogue env_ex .read st_ex [] 4090 10).2.2 =
      (6, some .InvalidAddress) := by
  have h := pmem_C4 env_ex .read st_ex [] 4090 10 [(4090, 6)] [] 4096 4
    .InvalidAddress rfl (by decide) (by decide) (by decide)
  simpa using h

theorem find_pte_present (pg : Paging) (v b i : Nat)
    (h : pmem_pte_find_pte pg v = .ok (b, i)) :
    (pg.mem b i).present = true := by
  simp only [pmem_pte_find_pte] at h
  split_ifs at h <;> simp_all

/-- Both outcomes of `map_rogue` keep the cached PTE location and preserve
the present, writable and page-size bits of the rogue page's PTE. -/
theorem map_rogue_pte_inv (env : Env) (s : PmemState) (paddr : Nat) :
    (pmem_pte_map_rogue env s paddr).1.pteBase = s.pteBase ∧
    (pmem_pte_map_rogue env s paddr).1.pteIdx = s.pteIdx ∧
    (roguePte (pmem_pte_map_rogue env s paddr).1).present =
      (roguePte s).present ∧
    (roguePte (pmem_pte_map_rogue env s paddr).1).writable =
      (roguePte s).writable ∧
    (roguePte (pmem_pte_map_rogue env s paddr).1).pageSize =
      (roguePte s).pageSize ∧
    (pmem_pte_map_rogue env s paddr).1.initialized = s.initialized := by
  by_cases hi : s.initialized = false
  · simp [pmem_pte_map_rogue, hi, roguePte]
  · have hi' : s.initialized = true := by simpa using hi
    by_cases hm : alignDown paddr ∈ env.tableFrames
    · simp [pmem_pte_map_rogue, hi', hm, roguePte]
    · simp [pmem_pte_map_rogue, hi', hm, roguePte]

/-- A segment transfer, whatever its outcome, keeps the cached PTE location
and preserves the present, writable and page-size bits of the rogue PTE. -/
theorem copy_seg_pte_inv (env : Env) (dir : Direction) (s : PmemState)
    (p l : Nat) (buf : List Nat) :
    (pmem_copy_seg env dir s p l buf).1.pteBase = s.pteBase ∧
    (pmem_copy_seg env dir s p l buf).1.pteIdx = s.pteIdx ∧
    (roguePte (pmem_copy_seg env dir s p l buf).1).present =
      (roguePte s).present ∧
    (roguePte (pmem_copy_seg env dir s p l buf).1).writable =
      (roguePte s).writable ∧
    (roguePte (pmem_copy_seg env dir s p l buf).1).pageSize =
      (roguePte s).pageSize ∧
    (pmem_copy_seg env dir s p l buf).1.initialized = s.initialized := by
  by_cases hi : s.initialized = false
  · simp [pmem_copy_seg, pmem_pte_map_rogue, hi, roguePte]
  · have hi' : s.initialized = true := by simpa using hi
    by_cases hm : alignDown p ∈ env.tableFrames
    · have hmr : pmem_pte_map_rogue env s p = (s, some .InvalidAddress) := by
        simp [pmem_pte_map_rogue, hi', hm]
      simp [pmem_copy_seg, hmr, roguePte]
    · simp only [pmem_copy_seg]
      rw [map_rogue_ok_eq env s p hi' hm]
      by_cases hh : env.hole (alignDown p) = true
      · simp [hh, roguePte, hi']
      · have hh' : env.hole (alignDown p) = false := by simpa using hh
        cases dir <;> simp [hh', roguePte, hi']

/-- The engine's loop, whatever its outcome, keeps the cached PTE location
and preserves the present, writable and page-size bits of the rogue PTE. -/
theorem run_pte_inv (env : Env) (dir : Direction) :
    ∀ segs : List (Nat × Nat), ∀ s buf,
      (pmem_run_segs env dir s buf segs).1.pteBase = s.pteBase ∧
      (pmem_run_segs env dir s buf segs).1.pteIdx = s.pteIdx ∧
      (roguePte (pmem_run_segs env dir s buf segs).1).present =
        (roguePte s).present ∧
      (roguePte (pmem_run_segs env dir s buf segs).1).writable =
        (roguePte s).writable ∧
      (roguePte (pmem_run_segs env dir s buf segs).1).pageSize =
        (roguePte s).pageSize ∧
      (pmem_run_segs env dir s buf segs).1.initialized = s.initialized := by
  intro segs
  induction segs with
  | nil =>
    intro s buf
    simp [pmem_run_segs]
  | cons q rest ih =>
    intro s buf
    obtain ⟨qp, ql⟩ := q
    have hcsfacts := copy_seg_pte_inv env dir s qp ql (buf.take ql)
    rcases hcs : pmem_copy_seg env dir s qp ql (buf.take ql) with ⟨s1, out, err⟩
    rw [hcs] at hcsfacts
    cases err with
    | some e =>
      rw [run_segs_cons_err env dir s buf qp ql rest s1 out e hcs]
      exact hcsfacts
    | none =>
      rw [run_segs_cons_ok env dir s buf qp ql rest s1 out hcs]
      obtain ⟨a1, a2, a3, a4, a5, a6⟩ := hcsfacts
      obtain ⟨b1, b2, b3, b4, b5, b6⟩ := ih s1 (buf.drop ql)
      exact ⟨b1.trans a1, b2.trans a2, b3.trans a3, b4.trans a4,
        b5.trans a5, b6.trans a6⟩

/-- Claim C6: a successful `init` caches a present rogue PTE, and every
subsequent operation before `cleanup` — each `map_rogue` and each
`readwrite_rogue` — keeps the present bit unchanged (hence set), rewriting
only the frame and flag fields of the entry. -/
theorem pmem_C6 :
    (∀ s v s1, pmem_pte_init s v = (s1, none) →
      (roguePte s1).present = true) ∧
    (∀ env s paddr,
      (pmem_pte_map_rogue env s paddr).1.pteBase = s.pteBase ∧
      (pmem_pte_map_rogue env s paddr).1.pteIdx = s.pteIdx ∧
      (roguePte (pmem_pte_map_rogue env s paddr).1).present =
        (roguePte s).present ∧
      (roguePte (pmem_pte_map_rogue env s paddr).1).writable =
        (roguePte s).writable ∧
      (roguePte (pmem_pte_map_rogue env s paddr).1).pageSize =
        (roguePte s).pageSize) ∧
    (∀ env dir s buf start len,
      (roguePte (pmem_readwrite_rogue env dir s buf start len).1).present =
        (roguePte s).present) := by
  refine ⟨?_, ?_, ?_⟩
  · intro s v s1 h
    simp only [pmem_pte_init] at h
    split_ifs at h with hi
    · simp at h
    · rcases hf : pmem_pte_find_pte s.paging v with e | bi
      · rw [hf] at h
        simp at h
      · obtain ⟨b, i⟩ := bi
        rw [hf] at h
        injection h with h1 h2
        subst h1
        simpa [roguePte] using find_pte_present s.paging v b i hf
  · intro env s paddr
    obtain ⟨a1, a2, a3, a4, a5, _⟩ := map_rogue_pte_inv env s paddr
    exact ⟨a1, a2, a3, a4, a5⟩
  · intro env dir s buf start len
    exact (run_pte_inv env dir (segments start len) s buf).2.2.1

/-- Witness for C6: `init` on `st_un` caches a present PTE; the remap and the
two-page read on `st_ex` leave the present bit of the rogue PTE unchanged. -/
theorem pmem_C6_witness :
    (roguePte (pmem_pte_init st_un 0).1).present = true ∧
    (roguePte (pmem_pte_map_rogue env_ex st_ex 0x123456).1).present =
      (roguePte st_ex).present ∧
    (roguePte (pmem_readwrite_rogue env_ex .read st_ex [] 0x11ffa 10).1).present =
      (roguePte st_ex).present :=
  ⟨pmem_C6.1 st_un 0 (pmem_pte_init st_un 0).1 rfl,
   (pmem_C6.2.1 env_ex st_ex 0x123456).2.2.1,
   pmem_C6.2.2 env_ex .read st_ex [] 0x11ffa 10⟩
